import Mathlib

/-!
Verification of the demand-driven pipeline execution engine described by the
repository specification, together with the leaf-stage code present under
`Modules/`.  Pure functions of the C++ sources are embedded as Lean functions;
stateful code (modification timestamps, pipeline updates) is embedded as
explicit state passing.  Machine integers are modelled as `Int`/`Nat` (no
overflow is relevant to any claim below).
-/

namespace ITKPipeline

/-- Modelled from the spec: an axis-aligned index+extent descriptor over an
N-dimensional integer lattice (spec section 3, "Region"); the engine source
(itkImageRegion) is not among the sampled files, only its callers are.
`origin` holds the first index on each axis, `extent` the non-negative number
of samples along that axis. -/
structure Region (n : Nat) where
  origin : Fin n → Int
  extent : Fin n → Nat
  deriving DecidableEq

namespace Region

/-- Membership of an integer lattice point in a region: on every axis the
coordinate lies in the half-open window `[origin, origin + extent)`. -/
def mem {n : Nat} (R : Region n) (p : Fin n → Int) : Prop :=
  ∀ i : Fin n, R.origin i ≤ p i ∧ p i < R.origin i + R.extent i

instance {n : Nat} (R : Region n) (p : Fin n → Int) : Decidable (R.mem p) :=
  inferInstanceAs (Decidable (∀ i : Fin n, _ ∧ _))

/-- Coordinate-wise containment of region `r` inside region `R`, the test the
update protocol uses to decide whether a buffered region already covers a
requested region. -/
def containsRegion {n : Nat} (R r : Region n) : Prop :=
  ∀ i : Fin n, R.origin i ≤ r.origin i ∧
    r.origin i + r.extent i ≤ R.origin i + R.extent i

instance {n : Nat} (R r : Region n) : Decidable (R.containsRegion r) :=
  inferInstanceAs (Decidable (∀ i : Fin n, _ ∧ _))

theorem containsRegion_refl {n : Nat} (R : Region n) : R.containsRegion R :=
  fun i => ⟨le_refl _, le_refl _⟩

theorem mem_of_containsRegion {n : Nat} {R r : Region n} (h : R.containsRegion r)
    {p : Fin n → Int} (hp : r.mem p) : R.mem p := by
  intro i
  have h1 := h i
  have h2 := hp i
  omega

end Region

/-- Modelled from the spec: the axis along which the region splitter divides
work — "splitting always chooses the axis with the largest extent among axes
eligible for parallel decomposition" (spec section 3).  Ties keep the
earlier axis.  The splitter source itself is not among the sampled files. -/
def chooseAxis {n : Nat} (R : Region (n + 1)) : Fin (n + 1) :=
  (List.finRange (n + 1)).foldl
    (fun best i => if R.extent best < R.extent i then i else best) 0

/-- Piece `j` of a split of `R` along axis `d` into `m` pieces of nominal
width `q` each: the origin along `d` is shifted by `j * q`, the extent along
`d` is `q` except for the last piece, which absorbs the remainder. -/
def splitPiece {n : Nat} (R : Region n) (d : Fin n) (m q j : Nat) : Region n :=
  { origin := fun i => if i = d then R.origin d + (j * q : Nat) else R.origin i
    extent := fun i =>
      if i = d then (if j = m - 1 then R.extent d - (m - 1) * q else q)
      else R.extent i }

/-- Modelled from the spec: splitting a region into `count` pieces along a
given axis `d` (spec section 3): the chosen axis's extent is divided by the
piece count; remainder elements from the integer division are assigned to the
last piece; when the extent along `d` is smaller than `count`, only
extent-many pieces are produced. -/
def splitAlong {n : Nat} (R : Region n) (d : Fin n) (count : Nat) :
    List (Region n) :=
  let m := min count (R.extent d)
  (List.range m).map (splitPiece R d m (R.extent d / m))

/-- Modelled from the spec: the region splitter — split along the largest
eligible axis (spec sections 3 and 4.4). -/
def splitRegion {n : Nat} (R : Region (n + 1)) (count : Nat) :
    List (Region (n + 1)) :=
  splitAlong R (chooseAxis R) count

theorem splitAlong_length {n : Nat} (R : Region n) (d : Fin n) (count : Nat) :
    (splitAlong R d count).length = min count (R.extent d) := by
  simp [splitAlong]

/-- Membership of a lattice point in an individual split piece, separated into
the split-axis window and the untouched remaining axes. -/
theorem mem_splitPiece {n : Nat} (R : Region n) (d : Fin n) (m q j : Nat)
    (p : Fin n → Int) :
    (splitPiece R d m q j).mem p ↔
      ((R.origin d + (j * q : Nat) ≤ p d ∧
        p d < R.origin d + (j * q : Nat) +
          ((if j = m - 1 then R.extent d - (m - 1) * q else q) : Nat)) ∧
       ∀ i, i ≠ d → R.origin i ≤ p i ∧ p i < R.origin i + R.extent i) := by
  constructor
  · intro h
    refine ⟨?_, ?_⟩
    · have hd := h d
      simp only [splitPiece] at hd
      simpa using hd
    · intro i hi
      have hx := h i
      simp only [splitPiece, if_neg hi] at hx
      exact hx
  · intro h i
    by_cases hi : i = d
    · subst hi
      simp only [splitPiece, if_pos rfl]
      exact_mod_cast h.1
    · simp only [splitPiece, if_neg hi]
      exact h.2 i hi

/-- Every piece of a split stays inside the original region. -/
theorem splitPiece_subset {n : Nat} (R : Region n) (d : Fin n) (K j : Nat)
    (hK : 1 ≤ K) (hj : j < min K (R.extent d)) :
    R.containsRegion (splitPiece R d (min K (R.extent d))
      (R.extent d / min K (R.extent d)) j) := by
  have hmle : min K (R.extent d) ≤ R.extent d := min_le_right _ _
  have hdm : min K (R.extent d) * (R.extent d / min K (R.extent d)) +
      R.extent d % min K (R.extent d) = R.extent d := Nat.div_add_mod _ _
  generalize hgen : min K (R.extent d) = m at hj hmle hdm ⊢
  cases m with
  | zero => omega
  | succ m0 =>
    generalize hqg : R.extent d / (m0 + 1) = q at hdm ⊢
    have hm1 : (m0 + 1) * q = m0 * q + q := by ring
    have hjq : j * q ≤ m0 * q := Nat.mul_le_mul_right q (by omega)
    have hj1q : (j + 1) * q = j * q + q := by ring
    have hj1le : (j + 1) * q ≤ (m0 + 1) * q := Nat.mul_le_mul_right q (by omega)
    intro i
    by_cases hi : i = d
    · subst hi
      simp only [splitPiece, if_pos rfl]
      constructor
      · have : (0 : Int) ≤ (j * q : Nat) := Int.natCast_nonneg _
        omega
      · by_cases hlast : j = (m0 + 1) - 1
        · simp only [if_pos hlast]
          have hjeq : j * q = m0 * q := by
            rw [show j = m0 from by omega]
          push_cast
          omega
        · simp only [if_neg hlast]
          push_cast
          omega
    · simp only [splitPiece, if_neg hi]
      exact ⟨le_refl _, le_refl _⟩

/-- Every produced piece has a positive extent along the split axis. -/
theorem splitPiece_extent_pos {n : Nat} (R : Region n) (d : Fin n) (K j : Nat)
    (hK : 1 ≤ K) (hj : j < min K (R.extent d)) :
    0 < (splitPiece R d (min K (R.extent d))
      (R.extent d / min K (R.extent d)) j).extent d := by
  have hm : 0 < min K (R.extent d) := lt_of_le_of_lt (Nat.zero_le _) hj
  have hmle : min K (R.extent d) ≤ R.extent d := min_le_right _ _
  have hqpos : 0 < R.extent d / min K (R.extent d) :=
    Nat.one_le_div_iff hm |>.mpr hmle
  have hdm : min K (R.extent d) * (R.extent d / min K (R.extent d)) +
      R.extent d % min K (R.extent d) = R.extent d := Nat.div_add_mod _ _
  generalize hgen : min K (R.extent d) = m at hj hm hmle hqpos hdm ⊢
  obtain ⟨m0, rfl⟩ : ∃ k, m = k + 1 := ⟨m - 1, by omega⟩
  generalize hqg : R.extent d / (m0 + 1) = q at hqpos hdm ⊢
  have hm1 : (m0 + 1) * q = m0 * q + q := by ring
  have hext2 : (splitPiece R d (m0 + 1) q j).extent d
      = if j = m0 then R.extent d - m0 * q else q := by
    simp [splitPiece]
  rw [hext2]
  by_cases hlast : j = m0
  · rw [if_pos hlast]
    omega
  · rw [if_neg hlast]
    exact hqpos

/-- Membership in a piece when the piece count is the successor `m0 + 1`,
with the last-piece test simplified. -/
theorem mem_splitPiece_succ {n : Nat} (R : Region n) (d : Fin n)
    (m0 q j : Nat) (p : Fin n → Int) :
    (splitPiece R d (m0 + 1) q j).mem p ↔
      ((R.origin d + (j * q : Nat) ≤ p d ∧
        p d < R.origin d + (j * q : Nat) +
          ((if j = m0 then R.extent d - m0 * q else q) : Nat)) ∧
       ∀ i, i ≠ d → R.origin i ≤ p i ∧ p i < R.origin i + R.extent i) := by
  rw [mem_splitPiece]
  have he : (m0 + 1 - 1 : Nat) = m0 := rfl
  rw [he]

/-- Pieces with distinct indices are disjoint: no lattice point belongs to
both (directed version, `j1 < j2`). -/
theorem splitPiece_disjoint_lt {n : Nat} (R : Region n) (d : Fin n)
    (m q j1 j2 : Nat) (hlt : j1 < j2) (hj2 : j2 < m) (p : Fin n → Int)
    (h1 : (splitPiece R d m q j1).mem p) (h2 : (splitPiece R d m q j2).mem p) :
    False := by
  have hb1 := ((mem_splitPiece R d m q j1 p).mp h1).1
  have hb2 := ((mem_splitPiece R d m q j2 p).mp h2).1
  have hj1ne : j1 ≠ m - 1 := by omega
  rw [if_neg hj1ne] at hb1
  have hmul : (j1 + 1) * q ≤ j2 * q := Nat.mul_le_mul_right q (by omega)
  have hmul2 : (j1 + 1) * q = j1 * q + q := by ring
  omega

/-- The list of pieces produced by a split along axis `d`. -/
theorem splitAlong_eq_map {n : Nat} (R : Region n) (d : Fin n) (K : Nat) :
    splitAlong R d K = (List.range (min K (R.extent d))).map
      (splitPiece R d (min K (R.extent d)) (R.extent d / min K (R.extent d))) :=
  rfl

theorem splitAlong_get {n : Nat} (R : Region n) (d : Fin n) (K j : Nat)
    (h : j < (splitAlong R d K).length) :
    (splitAlong R d K).get ⟨j, h⟩ =
      splitPiece R d (min K (R.extent d)) (R.extent d / min K (R.extent d)) j := by
  simp [splitAlong_eq_map, List.get_eq_getElem]

/-- Union reconstruction: a lattice point belongs to the original region iff
it belongs to some piece of the split. -/
theorem splitAlong_covers {n : Nat} (R : Region n) (d : Fin n) (K : Nat)
    (hK : 1 ≤ K) (p : Fin n → Int) :
    R.mem p ↔ ∃ piece ∈ splitAlong R d K, piece.mem p := by
  constructor
  · intro hmem
    have hd := hmem d
    have hext_pos : 0 < R.extent d := by omega
    have hm : 0 < min K (R.extent d) := lt_min hK hext_pos
    have hmle : min K (R.extent d) ≤ R.extent d := min_le_right _ _
    have hdm : min K (R.extent d) * (R.extent d / min K (R.extent d)) +
        R.extent d % min K (R.extent d) = R.extent d := Nat.div_add_mod _ _
    rw [splitAlong_eq_map]
    generalize hgen : min K (R.extent d) = m at hm hmle hdm ⊢
    obtain ⟨m0, rfl⟩ : ∃ k, m = k + 1 := ⟨m - 1, by omega⟩
    generalize hqg : R.extent d / (m0 + 1) = q at hdm ⊢
    have hqpos : 0 < q := by
      rw [← hqg]
      exact Nat.one_le_div_iff (by omega) |>.mpr hmle
    have hm1 : (m0 + 1) * q = m0 * q + q := by ring
    set t : Nat := (p d - R.origin d).toNat with ht
    have htval : (t : Int) = p d - R.origin d := Int.toNat_of_nonneg (by omega)
    have htlt : t < R.extent d := by omega
    have hdiv : q * (t / q) + t % q = t := Nat.div_add_mod t q
    have hmodlt : t % q < q := Nat.mod_lt _ hqpos
    have hcomm : q * (t / q) = (t / q) * q := Nat.mul_comm _ _
    refine ⟨splitPiece R d (m0 + 1) q (min (t / q) m0),
      List.mem_map_of_mem _ (List.mem_range.mpr (by omega)), ?_⟩
    rw [mem_splitPiece_succ]
    refine ⟨?_, fun i hi => hmem i⟩
    rcases le_or_lt (t / q) m0 with hcase | hcase
    · rw [min_eq_left hcase]
      by_cases hl : t / q = m0
      · rw [if_pos hl]
        have haq : t / q * q = m0 * q := by rw [hl]
        omega
      · rw [if_neg hl]
        omega
    · rw [min_eq_right (le_of_lt hcase), if_pos rfl]
      have hstep : (m0 + 1) * q ≤ t / q * q := Nat.mul_le_mul_right q (by omega)
      omega
  · rintro ⟨piece, hpin, hpm⟩
    rw [splitAlong_eq_map] at hpin
    obtain ⟨j, hjr, rfl⟩ := List.mem_map.mp hpin
    exact Region.mem_of_containsRegion
      (splitPiece_subset R d K j hK (List.mem_range.mp hjr)) hpm

/-- Full correctness of splitting along an arbitrary axis `d`: piece count,
pairwise disjointness, exact union reconstruction, and positive extent of
every piece along the split axis. -/
theorem splitAlong_correct {n : Nat} (R : Region n) (d : Fin n) (K : Nat)
    (hK : 1 ≤ K) :
    (K ≤ R.extent d → (splitAlong R d K).length = K) ∧
    (R.extent d < K → (splitAlong R d K).length = R.extent d) ∧
    (∀ (j1 j2 : Nat) (h1 : j1 < (splitAlong R d K).length)
        (h2 : j2 < (splitAlong R d K).length), j1 ≠ j2 →
      ∀ p : Fin n → Int,
        ¬(((splitAlong R d K).get ⟨j1, h1⟩).mem p ∧
          ((splitAlong R d K).get ⟨j2, h2⟩).mem p)) ∧
    (∀ p : Fin n → Int, R.mem p ↔ ∃ piece ∈ splitAlong R d K, piece.mem p) ∧
    (∀ piece ∈ splitAlong R d K, 0 < piece.extent d) := by
  refine ⟨?_, ?_, ?_, ?_, ?_⟩
  · intro h
    rw [splitAlong_length]
    exact Nat.min_eq_left h
  · intro h
    rw [splitAlong_length]
    exact Nat.min_eq_right (le_of_lt h)
  · intro j1 j2 h1 h2 hne p hcontra
    obtain ⟨hp1, hp2⟩ := hcontra
    rw [splitAlong_get] at hp1 hp2
    have hl1 : j1 < min K (R.extent d) := by
      have hx := h1
      rwa [splitAlong_length] at hx
    have hl2 : j2 < min K (R.extent d) := by
      have hx := h2
      rwa [splitAlong_length] at hx
    rcases Nat.lt_or_ge j1 j2 with h | h
    · exact splitPiece_disjoint_lt R d _ _ j1 j2 h hl2 p hp1 hp2
    · have hgt : j2 < j1 := by omega
      exact splitPiece_disjoint_lt R d _ _ j2 j1 hgt hl1 p hp2 hp1
  · exact fun p => splitAlong_covers R d K hK p
  · intro piece hin
    rw [splitAlong_eq_map] at hin
    obtain ⟨j, hjr, rfl⟩ := List.mem_map.mp hin
    exact splitPiece_extent_pos R d K j hK (List.mem_range.mp hjr)

/-- The property asserted by the split-coverage claim, for the splitter that
chooses the largest axis: correct piece count (`K` pieces when the chosen
axis's extent is at least `K`, otherwise extent-many), pairwise disjointness,
union exactly reconstructing `R`, and no piece of zero extent along the
chosen axis. -/
def SplitCoverageClaim {n : Nat} (R : Region (n + 1)) (K : Nat) : Prop :=
  (K ≤ R.extent (chooseAxis R) → (splitRegion R K).length = K) ∧
  (R.extent (chooseAxis R) < K →
    (splitRegion R K).length = R.extent (chooseAxis R)) ∧
  (∀ (j1 j2 : Nat) (h1 : j1 < (splitRegion R K).length)
      (h2 : j2 < (splitRegion R K).length), j1 ≠ j2 →
    ∀ p : Fin (n + 1) → Int,
      ¬(((splitRegion R K).get ⟨j1, h1⟩).mem p ∧
        ((splitRegion R K).get ⟨j2, h2⟩).mem p)) ∧
  (∀ p : Fin (n + 1) → Int, R.mem p ↔ ∃ piece ∈ splitRegion R K, piece.mem p) ∧
  (∀ piece ∈ splitRegion R K, 0 < piece.extent (chooseAxis R))

/-- C1: for every region with non-negative extents and every worker count
K ≥ 1, splitting into K pieces along the largest eligible axis yields an
ordered sequence of pairwise disjoint sub-regions whose union exactly equals
the original region, with the integer-division remainder assigned to the
last piece; exactly K pieces are produced when the chosen axis's extent is at
least K, otherwise exactly that axis's extent many pieces, and no produced
piece has zero extent along the split axis. -/
theorem C1_split_coverage {n : Nat} (R : Region (n + 1)) (K : Nat)
    (hK : 1 ≤ K) : SplitCoverageClaim R K := by
  unfold SplitCoverageClaim splitRegion
  exact splitAlong_correct R (chooseAxis R) K hK

/-- Concrete region used to witness the split-coverage claim. -/
def sampleRegion : Region 2 :=
  { origin := ![0, 0], extent := ![3, 7] }

/-- Witness for C1 at a concrete region and worker count. -/
theorem C1_split_coverage_witness :
    1 ≤ 3 ∧ SplitCoverageClaim sampleRegion 3 :=
  ⟨by decide, C1_split_coverage sampleRegion 3 (by decide)⟩

/-- Errors raised by the update protocol (spec section 7). -/
inductive PipelineError where
  | configurationError
  | invalidRegionError
  deriving DecidableEq

/-- Modelled from the spec: the per-stage state the update coordinator's data
phase consults for a linear pipeline chain (spec sections 3 and 4.3); the
coordinator source (the process-object machinery) is not among the sampled
files.  `mtime` is the stage's own modification timestamp, `pt` the pipeline
timestamp of its output, `buffered` the output's buffered region (`none` for
an empty buffer). -/
structure StageState (n : Nat) where
  mtime : Nat
  pt : Nat
  buffered : Option (Region n)
  deriving DecidableEq

/-- A buffer covers a requested region when it holds a region containing it. -/
def covers {n : Nat} (b : Option (Region n)) (r : Region n) : Prop :=
  match b with
  | none => False
  | some bb => bb.containsRegion r

instance coversDec {n : Nat} :
    (b : Option (Region n)) → (r : Region n) → Decidable (covers b r)
  | none, _ => isFalse (fun h => h)
  | some bb, r => inferInstanceAs (Decidable (bb.containsRegion r))

/-- Modelled from the spec: the data phase of the three-phase update protocol
over a linear chain of stages, upstream first (spec section 4.3, phase 3).
For each stage, if the stage's own timestamp or the input's pipeline
timestamp is newer than the output's pipeline timestamp, or the buffered
region does not contain the requested region, generateData runs: the output's
pipeline timestamp is stamped with the current clock, the buffered region is
set to the requested region, and the clock advances; otherwise the stage is
skipped (cache hit).  Returns the updated chain, the new clock, and one
executed-generateData flag per stage. -/
def runChain {n : Nat} (r : Region n) :
    List (StageState n) → Nat → Nat → List (StageState n) × Nat × List Bool
  | [], clock, _ => ([], clock, [])
  | st :: rest, clock, inTime =>
    if st.pt < st.mtime ∨ st.pt < inTime ∨ ¬ covers st.buffered r then
      let res := runChain r rest (clock + 1) clock
      ({ mtime := st.mtime, pt := clock, buffered := some r } :: res.1,
        res.2.1, true :: res.2.2)
    else
      let res := runChain r rest clock st.pt
      (st :: res.1, res.2.1, false :: res.2.2)

/-- All timestamps in the chain lie strictly below the clock. -/
def Valid {n : Nat} (chain : List (StageState n)) (clock : Nat) : Prop :=
  ∀ s ∈ chain, s.mtime < clock ∧ s.pt < clock

instance {n : Nat} (chain : List (StageState n)) (clock : Nat) :
    Decidable (Valid chain clock) :=
  List.decidableBAll _ chain

/-- No stage's output has ever been computed. -/
def Fresh {n : Nat} (chain : List (StageState n)) : Prop :=
  ∀ s ∈ chain, s.buffered = none

instance {n : Nat} (chain : List (StageState n)) : Decidable (Fresh chain) :=
  List.decidableBAll _ chain

/-- Every stage of the chain is up to date for request `r` given the pipeline
timestamp `inT` flowing in from upstream: its own timestamp and the input
pipeline timestamp are not newer than its output's pipeline timestamp and its
buffer covers the request. -/
def upToDate {n : Nat} (r : Region n) : Nat → List (StageState n) → Prop
  | _, [] => True
  | inT, st :: rest =>
    st.mtime ≤ st.pt ∧ inT ≤ st.pt ∧ covers st.buffered r ∧ upToDate r st.pt rest

instance upToDateDec {n : Nat} (r : Region n) :
    (inT : Nat) → (chain : List (StageState n)) → Decidable (upToDate r inT chain)
  | _, [] => isTrue trivial
  | inT, st :: rest =>
    letI := upToDateDec r st.pt rest
    inferInstanceAs (Decidable (_ ∧ _ ∧ _ ∧ _))

/-- The pipeline timestamp flowing out of the downstream end of a chain. -/
def chainOut {n : Nat} (inT : Nat) : List (StageState n) → Nat
  | [] => inT
  | st :: rest => chainOut st.pt rest

theorem runChain_len_chain {n : Nat} (r : Region n) (chain : List (StageState n))
    (clock inT : Nat) : (runChain r chain clock inT).1.length = chain.length := by
  induction chain generalizing clock inT with
  | nil => rfl
  | cons st rest ih =>
    by_cases hc : st.pt < st.mtime ∨ st.pt < inT ∨ ¬ covers st.buffered r
    · simp [runChain, if_pos hc, ih]
    · simp [runChain, if_neg hc, ih]

theorem runChain_len_flags {n : Nat} (r : Region n) (chain : List (StageState n))
    (clock inT : Nat) : (runChain r chain clock inT).2.2.length = chain.length := by
  induction chain generalizing clock inT with
  | nil => rfl
  | cons st rest ih =>
    by_cases hc : st.pt < st.mtime ∨ st.pt < inT ∨ ¬ covers st.buffered r
    · simp [runChain, if_pos hc, ih]
    · simp [runChain, if_neg hc, ih]

theorem runChain_clock_le {n : Nat} (r : Region n) (chain : List (StageState n))
    (clock inT : Nat) : clock ≤ (runChain r chain clock inT).2.1 := by
  induction chain generalizing clock inT with
  | nil => exact le_refl _
  | cons st rest ih =>
    by_cases hc : st.pt < st.mtime ∨ st.pt < inT ∨ ¬ covers st.buffered r
    · simp only [runChain, if_pos hc]
      exact le_trans (Nat.le_succ _) (ih (clock + 1) clock)
    · simp only [runChain, if_neg hc]
      exact ih clock st.pt

/-- Memoization core: a chain that is already up to date is returned
unchanged, with the clock untouched and no generateData executed. -/
theorem runChain_skip {n : Nat} (r : Region n) (chain : List (StageState n))
    (clock inT : Nat) (h : upToDate r inT chain) :
    runChain r chain clock inT = (chain, clock, List.replicate chain.length false) := by
  induction chain generalizing clock inT with
  | nil => rfl
  | cons st rest ih =>
    obtain ⟨h1, h2, h3, h4⟩ := h
    have hc : ¬(st.pt < st.mtime ∨ st.pt < inT ∨ ¬ covers st.buffered r) := by
      push_neg
      exact ⟨h1, h2, h3⟩
    simp [runChain, if_neg hc, ih clock st.pt h4, List.replicate_succ]

/-- On a fresh chain every stage executes generateData. -/
theorem runChain_fresh {n : Nat} (r : Region n) (chain : List (StageState n))
    (clock inT : Nat) (h : Fresh chain) :
    (runChain r chain clock inT).2.2 = List.replicate chain.length true := by
  induction chain generalizing clock inT with
  | nil => rfl
  | cons st rest ih =>
    have hb : st.buffered = none := h st (List.mem_cons_self _ _)
    have hcov : ¬ covers st.buffered r := by
      rw [hb]
      exact fun hx => hx
    have hc : st.pt < st.mtime ∨ st.pt < inT ∨ ¬ covers st.buffered r :=
      Or.inr (Or.inr hcov)
    have hrest : Fresh rest := fun s hs => h s (List.mem_cons_of_mem _ hs)
    simp [runChain, if_pos hc, ih (clock + 1) clock hrest, List.replicate_succ]

/-- After a data phase from a valid state, the chain is up to date for the
request, and all timestamps remain strictly below the final clock. -/
theorem runChain_post {n : Nat} (r : Region n) (chain : List (StageState n))
    (clock inT : Nat) (hv : Valid chain clock) (hin : inT < clock) :
    upToDate r inT (runChain r chain clock inT).1 ∧
    Valid (runChain r chain clock inT).1 (runChain r chain clock inT).2.1 := by
  induction chain generalizing clock inT with
  | nil => exact ⟨trivial, fun s hs => absurd hs (List.not_mem_nil s)⟩
  | cons st rest ih =>
    have hst := hv st (List.mem_cons_self _ _)
    have hvrest : Valid rest clock := fun s hs => hv s (List.mem_cons_of_mem _ hs)
    by_cases hc : st.pt < st.mtime ∨ st.pt < inT ∨ ¬ covers st.buffered r
    · have hvrest1 : Valid rest (clock + 1) := fun s hs =>
        ⟨Nat.lt_succ_of_lt (hvrest s hs).1, Nat.lt_succ_of_lt (hvrest s hs).2⟩
      have hrec := ih (clock + 1) clock hvrest1 (Nat.lt_succ_self _)
      have hcle := runChain_clock_le r rest (clock + 1) clock
      simp only [runChain, if_pos hc]
      constructor
      · exact ⟨le_of_lt hst.1, le_of_lt hin, Region.containsRegion_refl r, hrec.1⟩
      · intro s hs
        rcases List.mem_cons.mp hs with rfl | hs2
        · exact ⟨lt_of_lt_of_le (Nat.lt_succ_of_lt hst.1) hcle,
            lt_of_lt_of_le (Nat.lt_succ_self _) hcle⟩
        · exact hrec.2 s hs2
    · have hparts : st.mtime ≤ st.pt ∧ inT ≤ st.pt ∧ covers st.buffered r := by
        have hx := hc
        push_neg at hx
        exact hx
      have hrec := ih clock st.pt hvrest hst.2
      have hcle := runChain_clock_le r rest clock st.pt
      simp only [runChain, if_neg hc]
      constructor
      · exact ⟨hparts.1, hparts.2.1, hparts.2.2, hrec.1⟩
      · intro s hs
        rcases List.mem_cons.mp hs with rfl | hs2
        · exact ⟨lt_of_lt_of_le hst.1 hcle, lt_of_lt_of_le hst.2 hcle⟩
        · exact hrec.2 s hs2

/-- Every stage of an up-to-date chain has a buffer covering the request. -/
theorem upToDate_covers {n : Nat} (r : Region n) (chain : List (StageState n))
    (inT : Nat) (h : upToDate r inT chain) :
    ∀ s ∈ chain, covers s.buffered r := by
  induction chain generalizing inT with
  | nil => intro s hs; exact absurd hs (List.not_mem_nil s)
  | cons st rest ih =>
    obtain ⟨h1, h2, h3, h4⟩ := h
    intro s hs
    rcases List.mem_cons.mp hs with rfl | hs2
    · exact h3
    · exact ih st.pt h4 s hs2

/-- The data phase over a concatenated chain processes the prefix first and
threads the prefix's outgoing pipeline timestamp into the suffix. -/
theorem runChain_append {n : Nat} (r : Region n) (xs ys : List (StageState n))
    (clock inT : Nat) :
    runChain r (xs ++ ys) clock inT =
      ((runChain r xs clock inT).1 ++
        (runChain r ys (runChain r xs clock inT).2.1
          (chainOut inT (runChain r xs clock inT).1)).1,
       (runChain r ys (runChain r xs clock inT).2.1
          (chainOut inT (runChain r xs clock inT).1)).2.1,
       (runChain r xs clock inT).2.2 ++
        (runChain r ys (runChain r xs clock inT).2.1
          (chainOut inT (runChain r xs clock inT).1)).2.2) := by
  induction xs generalizing clock inT with
  | nil => simp [runChain, chainOut]
  | cons st rest ih =>
    by_cases hc : st.pt < st.mtime ∨ st.pt < inT ∨ ¬ covers st.buffered r
    · simp only [List.cons_append, runChain, if_pos hc, List.append_eq,
        ih (clock + 1) clock, chainOut]
    · simp only [List.cons_append, runChain, if_neg hc, List.append_eq,
        ih clock st.pt, chainOut]

/-- An up-to-date prefix of a chain is itself up to date. -/
theorem upToDate_append_left {n : Nat} (r : Region n) (xs ys : List (StageState n))
    (inT : Nat) (h : upToDate r inT (xs ++ ys)) : upToDate r inT xs := by
  induction xs generalizing inT with
  | nil => trivial
  | cons st rest ih =>
    obtain ⟨h1, h2, h3, h4⟩ := h
    exact ⟨h1, h2, h3, ih st.pt h4⟩

/-- Invalidation cascade: once the pipeline timestamp flowing in from
upstream is newer than every stage's output timestamp, every stage of the
chain re-executes generateData. -/
theorem runChain_cascade {n : Nat} (r : Region n) (chain : List (StageState n))
    (clock inT : Nat) (hin : ∀ s ∈ chain, s.pt < inT) (hlt : inT ≤ clock) :
    (runChain r chain clock inT).2.2 = List.replicate chain.length true := by
  induction chain generalizing clock inT with
  | nil => rfl
  | cons st rest ih =>
    have hst : st.pt < inT := hin st (List.mem_cons_self _ _)
    have hc : st.pt < st.mtime ∨ st.pt < inT ∨ ¬ covers st.buffered r :=
      Or.inr (Or.inl hst)
    have hrest : ∀ s ∈ rest, s.pt < clock := fun s hs =>
      lt_of_lt_of_le (lt_of_lt_of_le (hin s (List.mem_cons_of_mem _ hs)) hlt)
        (le_refl _)
    simp [runChain, if_pos hc, ih (clock + 1) clock hrest (Nat.le_succ _),
      List.replicate_succ]

/-- Data-phase equation for a stage that must execute. -/
theorem runChain_cons_exec {n : Nat} (r : Region n) (st : StageState n)
    (rest : List (StageState n)) (clock inT : Nat)
    (hc : st.pt < st.mtime ∨ st.pt < inT ∨ ¬ covers st.buffered r) :
    runChain r (st :: rest) clock inT =
      ({ mtime := st.mtime, pt := clock, buffered := some r } ::
          (runChain r rest (clock + 1) clock).1,
       (runChain r rest (clock + 1) clock).2.1,
       true :: (runChain r rest (clock + 1) clock).2.2) := by
  simp [runChain, if_pos hc]

/-- Modelled from the spec: a data object's region bookkeeping (spec
sections 3 and 4.1): the largest possible region, the requested region and
the buffered region.  The data-object source is not among the sampled
files. -/
structure DataObject (n : Nat) where
  largestPossibleRegion : Region n
  requestedRegion : Region n
  bufferedRegion : Option (Region n)
  deriving DecidableEq

/-- Modelled from the spec: setRequestedRegion fails with InvalidRegionError
if the region is not contained in the largest possible region, and stores it
otherwise (spec section 4.1). -/
def setRequestedRegion {n : Nat} (d : DataObject n) (r : Region n) :
    Except PipelineError (DataObject n) :=
  if d.largestPossibleRegion.containsRegion r then
    Except.ok { d with requestedRegion := r }
  else Except.error PipelineError.invalidRegionError

/-- Required-input bookkeeping of a pipeline stage (spec section 3,
"Pipeline stage"). -/
structure StageConfiguration where
  numberOfRequiredInputs : Nat
  numberOfSetInputs : Nat
  deriving DecidableEq

/-- Modelled from the spec: update() checks the stage's configuration before
the data phase runs — the absence of a required input is a configuration
error raised before any generateData call (spec sections 3, 7 and 8). -/
def update {n : Nat} (cfg : StageConfiguration) (r : Region n)
    (chain : List (StageState n)) (clock : Nat) :
    Except PipelineError (List (StageState n) × Nat × List Bool) :=
  if cfg.numberOfSetInputs < cfg.numberOfRequiredInputs then
    Except.error PipelineError.configurationError
  else Except.ok (runChain r chain clock 0)

/-- C2: on an unmodified stage chain with an unmodified upstream graph, two
consecutive updates requesting the same region execute generateData exactly
once per stage: the first call (from a fresh state) executes every stage
once, and the second call executes nothing (cache hit). -/
theorem C2_idempotent_caching {n : Nat} (r : Region n)
    (chain : List (StageState n)) (clock : Nat)
    (hv : Valid chain clock) (hclock : 0 < clock) (hf : Fresh chain) :
    (runChain r chain clock 0).2.2 = List.replicate chain.length true ∧
    (runChain r (runChain r chain clock 0).1
      (runChain r chain clock 0).2.1 0).2.2 = List.replicate chain.length false := by
  have hpost := runChain_post r chain clock 0 hv hclock
  refine ⟨runChain_fresh r chain clock 0 hf, ?_⟩
  rw [runChain_skip r (runChain r chain clock 0).1
    (runChain r chain clock 0).2.1 0 hpost.1]
  simp [runChain_len_chain]

/-- C3: after modified() is called on an upstream stage of an up-to-date
chain and the same region is requested again, every downstream stage
(the modified stage included) re-executes generateData, while the up-to-date
upstream prefix is not re-executed. -/
theorem C3_freshness {n : Nat} (r : Region n) (A B : List (StageState n))
    (st : StageState n) (clock : Nat)
    (hu : upToDate r 0 (A ++ st :: B)) (hv : Valid (A ++ st :: B) clock) :
    (runChain r (A ++ ({ st with mtime := clock } :: B)) (clock + 1) 0).2.2
      = List.replicate A.length false ++ List.replicate (B.length + 1) true := by
  have hA : upToDate r 0 A := upToDate_append_left r A (st :: B) 0 hu
  have hstpt : st.pt < clock :=
    (hv st (List.mem_append_right _ (List.mem_cons_self _ _))).2
  have hcascade := runChain_cascade r B (clock + 1 + 1) (clock + 1)
    (fun s hs =>
      Nat.lt_succ_of_lt (hv s (List.mem_append_right _ (List.mem_cons_of_mem _ hs))).2)
    (Nat.le_succ _)
  rw [runChain_append, runChain_skip r A (clock + 1) 0 hA]
  dsimp only
  rw [runChain_cons_exec r { st with mtime := clock } B (clock + 1)
    (chainOut 0 A) (Or.inl hstpt)]
  dsimp only
  rw [hcascade]
  simp [List.replicate_succ]

/-- C4: after any successful update every stage output's buffered region
contains the requested region, and any data object produced by a successful
setRequestedRegion has its requested region contained in its largest
possible region. -/
theorem C4_region_containment {n : Nat} (r : Region n)
    (chain : List (StageState n)) (clock : Nat)
    (hv : Valid chain clock) (hclock : 0 < clock)
    (d d2 : DataObject n) (rq : Region n)
    (hset : setRequestedRegion d rq = Except.ok d2) :
    (∀ s ∈ (runChain r chain clock 0).1, covers s.buffered r) ∧
    d2.largestPossibleRegion.containsRegion d2.requestedRegion := by
  constructor
  · exact upToDate_covers r _ 0 (runChain_post r chain clock 0 hv hclock).1
  · unfold setRequestedRegion at hset
    by_cases hcont : d.largestPossibleRegion.containsRegion rq
    · rw [if_pos hcont] at hset
      cases hset
      exact hcont
    · rw [if_neg hcont] at hset
      cases hset

/-- C6: a stage with fewer set inputs than its number of required inputs
raises ConfigurationError from update() before the data phase can run; with
all required inputs present the data phase runs. -/
theorem C6_required_inputs {n : Nat} (cfg : StageConfiguration) (r : Region n)
    (chain : List (StageState n)) (clock : Nat) :
    (cfg.numberOfSetInputs < cfg.numberOfRequiredInputs →
      update cfg r chain clock = Except.error PipelineError.configurationError) ∧
    (cfg.numberOfRequiredInputs ≤ cfg.numberOfSetInputs →
      update cfg r chain clock = Except.ok (runChain r chain clock 0)) := by
  constructor
  · intro h
    simp [update, h]
  · intro h
    simp [update, Nat.not_lt_of_le h]

/-- C7: setRequestedRegion fails with InvalidRegionError exactly when the
region is not contained in the data object's largest possible region, and
stores the region as the requested region when it is contained. -/
theorem C7_setRequestedRegion_guard {n : Nat} (d : DataObject n) (r : Region n) :
    (d.largestPossibleRegion.containsRegion r →
      setRequestedRegion d r = Except.ok { d with requestedRegion := r }) ∧
    (¬ d.largestPossibleRegion.containsRegion r →
      setRequestedRegion d r = Except.error PipelineError.invalidRegionError) := by
  constructor
  · intro h
    simp [setRequestedRegion, h]
  · intro h
    simp [setRequestedRegion, h]

/-- Concrete stage states and data objects used by the witnesses. -/
def sampleStage : StageState 2 :=
  { mtime := 0, pt := 0, buffered := none }

def sampleReadyStage : StageState 2 :=
  { mtime := 0, pt := 0, buffered := some sampleRegion }

def sampleObject : DataObject 2 :=
  { largestPossibleRegion := sampleRegion
    requestedRegion := sampleRegion
    bufferedRegion := none }

def subRegion : Region 2 :=
  { origin := ![0, 0], extent := ![2, 5] }

def badRegion : Region 2 :=
  { origin := ![0, 0], extent := ![4, 8] }

/-- Witness for C2 on a two-stage fresh chain. -/
theorem C2_idempotent_caching_witness :
    Valid [sampleStage, sampleStage] 1 ∧ 0 < 1 ∧ Fresh [sampleStage, sampleStage] ∧
    ((runChain sampleRegion [sampleStage, sampleStage] 1 0).2.2
        = List.replicate 2 true ∧
     (runChain sampleRegion (runChain sampleRegion [sampleStage, sampleStage] 1 0).1
        (runChain sampleRegion [sampleStage, sampleStage] 1 0).2.1 0).2.2
        = List.replicate 2 false) :=
  ⟨by decide, by decide, by decide,
    C2_idempotent_caching sampleRegion [sampleStage, sampleStage] 1
      (by decide) (by decide) (by decide)⟩

/-- Witness for C3: touching the middle stage of an up-to-date three-stage
chain re-executes it and its downstream stage only. -/
theorem C3_freshness_witness :
    upToDate sampleRegion 0 ([sampleReadyStage] ++ sampleReadyStage :: [sampleReadyStage]) ∧
    Valid ([sampleReadyStage] ++ sampleReadyStage :: [sampleReadyStage]) 1 ∧
    (runChain sampleRegion
      ([sampleReadyStage] ++ ({ sampleReadyStage with mtime := 1 } :: [sampleReadyStage]))
      (1 + 1) 0).2.2
      = List.replicate 1 false ++ List.replicate 2 true :=
  ⟨by decide, by decide,
    C3_freshness sampleRegion [sampleReadyStage] [sampleReadyStage] sampleReadyStage 1
      (by decide) (by decide)⟩

/-- Witness for C4 on a concrete chain and a concrete successful
setRequestedRegion. -/
theorem C4_region_containment_witness :
    Valid [sampleStage] 1 ∧ 0 < 1 ∧
    setRequestedRegion sampleObject subRegion
      = Except.ok { sampleObject with requestedRegion := subRegion } ∧
    ((∀ s ∈ (runChain sampleRegion [sampleStage] 1 0).1, covers s.buffered sampleRegion) ∧
     ({ sampleObject with requestedRegion := subRegion } : DataObject 2).largestPossibleRegion.containsRegion
       ({ sampleObject with requestedRegion := subRegion } : DataObject 2).requestedRegion) :=
  ⟨by decide, by decide, rfl,
    C4_region_containment sampleRegion [sampleStage] 1 (by decide) (by decide)
      sampleObject { sampleObject with requestedRegion := subRegion } subRegion rfl⟩

/-- Witness for C6: two required inputs, one set input. -/
theorem C6_required_inputs_witness :
    (1 < 2 →
      update ⟨2, 1⟩ sampleRegion [sampleStage] 1
        = Except.error PipelineError.configurationError) ∧
    1 < 2 ∧
    update ⟨2, 1⟩ sampleRegion [sampleStage] 1
      = Except.error PipelineError.configurationError :=
  ⟨(C6_required_inputs ⟨2, 1⟩ sampleRegion [sampleStage] 1).1, by decide,
    (C6_required_inputs ⟨2, 1⟩ sampleRegion [sampleStage] 1).1 (by decide)⟩

/-- Witness for C7 at a contained and a non-contained region. -/
theorem C7_setRequestedRegion_guard_witness :
    setRequestedRegion sampleObject subRegion
      = Except.ok { sampleObject with requestedRegion := subRegion } ∧
    setRequestedRegion sampleObject badRegion
      = Except.error PipelineError.invalidRegionError :=
  ⟨(C7_setRequestedRegion_guard sampleObject subRegion).1 (by decide),
   (C7_setRequestedRegion_guard sampleObject badRegion).2 (by decide)⟩

/-- Streaming piece geometry of the streaming-writer test
(itkMetaImageStreamingWriterIOTest.cxx): the full slowest-axis extent `fullz`
is cut into `P` slabs of width `fullz / P` in ascending order; the last slab
is adjusted to `fullz` minus the start of the last slab, absorbing the
integer-division remainder.  Each piece is `(start, size)` along that axis. -/
def streamPieces (fullz P : Nat) : List (Nat × Nat) :=
  (List.range P).map fun i =>
    (i * (fullz / P),
     if i = P - 1 then fullz - (P - 1) * (fullz / P) else fullz / P)

/-- Modelled from the spec: committing one piece writes the sink's computed
content over the piece's slab into the destination, leaving all other
already-committed content untouched (spec section 4.5). -/
def commitPiece {α : Type} (f : Nat → α) (acc : Nat → Option α)
    (piece : Nat × Nat) : Nat → Option α :=
  fun z => if piece.1 ≤ z ∧ z < piece.1 + piece.2 then some (f z) else acc z

/-- Modelled from the spec: the streaming controller — for each piece in
ascending order, run the update for that piece's region and commit it (spec
section 4.5).  As the update protocol computes each requested slab of the
deterministic per-index content `f` (see the data-phase model above), the
committed content of a piece is `f` restricted to the slab. -/
def streamWrite {α : Type} (f : Nat → α) (fullz P : Nat) : Nat → Option α :=
  (streamPieces fullz P).foldl (commitPiece f) (fun _ => none)

/-- The single non-streamed update: commit the whole extent in one piece. -/
def fullWrite {α : Type} (f : Nat → α) (fullz : Nat) : Nat → Option α :=
  commitPiece f (fun _ => none) (0, fullz)

theorem streamPieces_length (fullz P : Nat) :
    (streamPieces fullz P).length = P := by
  simp [streamPieces]

theorem streamPieces_get (fullz P i : Nat) (h : i < (streamPieces fullz P).length) :
    (streamPieces fullz P).get ⟨i, h⟩ =
      (i * (fullz / P),
       if i = P - 1 then fullz - (P - 1) * (fullz / P) else fullz / P) := by
  simp [streamPieces, List.get_eq_getElem]

/-- Folding commits over a piece list writes `f` on every index covered by
some piece and leaves the rest of the accumulator alone. -/
theorem foldl_commitPiece {α : Type} (f : Nat → α) (pieces : List (Nat × Nat))
    (acc : Nat → Option α) (z : Nat) :
    (pieces.foldl (commitPiece f) acc) z =
      if ∃ p ∈ pieces, p.1 ≤ z ∧ z < p.1 + p.2 then some (f z) else acc z := by
  induction pieces generalizing acc with
  | nil => simp
  | cons p rest ih =>
    rw [List.foldl_cons, ih]
    by_cases hz : p.1 ≤ z ∧ z < p.1 + p.2
    · by_cases hex : ∃ q ∈ rest, q.1 ≤ z ∧ z < q.1 + q.2
      · rw [if_pos hex, if_pos ⟨p, List.mem_cons_self _ _, hz⟩]
      · rw [if_neg hex, if_pos ⟨p, List.mem_cons_self _ _, hz⟩]
        simp [commitPiece, hz]
    · by_cases hex : ∃ q ∈ rest, q.1 ≤ z ∧ z < q.1 + q.2
      · obtain ⟨q, hq1, hq2⟩ := hex
        rw [if_pos ⟨q, hq1, hq2⟩, if_pos ⟨q, List.mem_cons_of_mem _ hq1, hq2⟩]
      · rw [if_neg hex, if_neg ?hc]
        · simp [commitPiece, hz]
        · rintro ⟨q, hq1, hq2⟩
          rcases List.mem_cons.mp hq1 with rfl | hq3
          · exact hz hq2
          · exact hex ⟨q, hq3, hq2⟩

/-- The stream pieces cover exactly the indices below `fullz`. -/
theorem streamPieces_cover (fullz P z : Nat) (hP : 1 ≤ P) (hPz : P ≤ fullz) :
    z < fullz ↔ ∃ p ∈ streamPieces fullz P, p.1 ≤ z ∧ z < p.1 + p.2 := by
  have hdm : P * (fullz / P) + fullz % P = fullz := Nat.div_add_mod _ _
  obtain ⟨P0, rfl⟩ : ∃ k, P = k + 1 := ⟨P - 1, by omega⟩
  generalize hqg : fullz / (P0 + 1) = q at hdm ⊢
  have hqpos : 0 < q := by
    rw [← hqg]
    exact Nat.one_le_div_iff (by omega) |>.mpr hPz
  have hm1 : (P0 + 1) * q = P0 * q + q := by ring
  have hP1 : (P0 + 1 - 1 : Nat) = P0 := rfl
  constructor
  · intro hz
    have hdiv : q * (z / q) + z % q = z := Nat.div_add_mod z q
    have hmodlt : z % q < q := Nat.mod_lt _ hqpos
    have hcomm : q * (z / q) = z / q * q := Nat.mul_comm _ _
    refine ⟨((min (z / q) P0) * q,
       if min (z / q) P0 = P0 + 1 - 1 then fullz - (P0 + 1 - 1) * q else q), ?_, ?_⟩
    · rw [streamPieces]
      refine List.mem_map.mpr ⟨min (z / q) P0, List.mem_range.mpr (by omega), ?_⟩
      rw [hqg]
    · rw [hP1]
      rcases le_or_lt (z / q) P0 with hcase | hcase
      · rw [min_eq_left hcase]
        by_cases hl : z / q = P0
        · rw [if_pos hl]
          have haq : z / q * q = P0 * q := by rw [hl]
          constructor
          · omega
          · omega
        · rw [if_neg hl]
          constructor
          · omega
          · omega
      · rw [min_eq_right (le_of_lt hcase), if_pos rfl]
        have hstep : (P0 + 1) * q ≤ z / q * q := Nat.mul_le_mul_right q (by omega)
        constructor
        · omega
        · omega
  · rintro ⟨p, hp, hz1, hz2⟩
    rw [streamPieces] at hp
    obtain ⟨i, hir, rfl⟩ := List.mem_map.mp hp
    have hilt : i < P0 + 1 := List.mem_range.mp hir
    rw [hqg] at hz1 hz2
    rw [hP1] at hz1 hz2
    by_cases hl : i = P0
    · rw [if_pos hl] at hz2
      have haq : i * q = P0 * q := by rw [hl]
      omega
    · rw [if_neg hl] at hz2
      have hle : (i + 1) * q ≤ (P0 + 1) * q := Nat.mul_le_mul_right q (by omega)
      have hi1 : (i + 1) * q = i * q + q := by ring
      omega

/-- Distinct stream pieces are disjoint (directed version). -/
theorem streamPieces_disjoint_lt (fullz P i1 i2 z : Nat) (hlt : i1 < i2)
    (h2 : i2 < P)
    (hz1 : i1 * (fullz / P) ≤ z ∧
      z < i1 * (fullz / P) +
        (if i1 = P - 1 then fullz - (P - 1) * (fullz / P) else fullz / P))
    (hz2 : i2 * (fullz / P) ≤ z ∧
      z < i2 * (fullz / P) +
        (if i2 = P - 1 then fullz - (P - 1) * (fullz / P) else fullz / P)) :
    False := by
  have hne : i1 ≠ P - 1 := by omega
  rw [if_neg hne] at hz1
  have hle : (i1 + 1) * (fullz / P) ≤ i2 * (fullz / P) :=
    Nat.mul_le_mul_right _ (by omega)
  have hi1 : (i1 + 1) * (fullz / P) = i1 * (fullz / P) + fullz / P := by ring
  omega

/-- The property asserted by the streaming round-trip claim: the committed
reassembly of the stream pieces agrees index-for-index with the single
non-streamed full computation, the pieces are exactly `P` many, pairwise
disjoint, and their union is exactly the full extent (the last piece
absorbing the remainder by construction). -/
def StreamingRoundTripClaim {α : Type} (f : Nat → α) (fullz P : Nat) : Prop :=
  (∀ z, streamWrite f fullz P z = fullWrite f fullz z) ∧
  (streamPieces fullz P).length = P ∧
  (∀ (i1 i2 : Nat) (h1 : i1 < (streamPieces fullz P).length)
      (h2 : i2 < (streamPieces fullz P).length), i1 ≠ i2 →
    ∀ z, ¬((((streamPieces fullz P).get ⟨i1, h1⟩).1 ≤ z ∧
            z < ((streamPieces fullz P).get ⟨i1, h1⟩).1 +
              ((streamPieces fullz P).get ⟨i1, h1⟩).2) ∧
           (((streamPieces fullz P).get ⟨i2, h2⟩).1 ≤ z ∧
            z < ((streamPieces fullz P).get ⟨i2, h2⟩).1 +
              ((streamPieces fullz P).get ⟨i2, h2⟩).2))) ∧
  (∀ z, z < fullz ↔ ∃ p ∈ streamPieces fullz P, p.1 ≤ z ∧ z < p.1 + p.2)

/-- C5: streaming a full extent as P ordered pieces (request piece, update,
commit) and reassembling the committed pieces reproduces exactly the result
of a single non-streamed full update, and the pieces partition the full
extent with no gap or overlap, the last piece absorbing the remainder. -/
theorem C5_streaming_round_trip {α : Type} (f : Nat → α) (fullz P : Nat)
    (hP : 1 ≤ P) (hPz : P ≤ fullz) : StreamingRoundTripClaim f fullz P := by
  refine ⟨?_, streamPieces_length fullz P, ?_, fun z => streamPieces_cover fullz P z hP hPz⟩
  · intro z
    rw [streamWrite, foldl_commitPiece]
    by_cases hz : z < fullz
    · rw [if_pos ((streamPieces_cover fullz P z hP hPz).mp hz)]
      simp [fullWrite, commitPiece, hz]
    · rw [if_neg (fun hex => hz ((streamPieces_cover fullz P z hP hPz).mpr hex))]
      simp [fullWrite, commitPiece, hz]
  · intro i1 i2 h1 h2 hne z hcontra
    obtain ⟨hz1, hz2⟩ := hcontra
    rw [streamPieces_get] at hz1 hz2
    have hl1 : i1 < P := by
      have hx := h1
      rwa [streamPieces_length] at hx
    have hl2 : i2 < P := by
      have hx := h2
      rwa [streamPieces_length] at hx
    rcases Nat.lt_or_ge i1 i2 with h | h
    · exact streamPieces_disjoint_lt fullz P i1 i2 z h hl2 hz1 hz2
    · have hgt : i2 < i1 := by omega
      exact streamPieces_disjoint_lt fullz P i2 i1 z hgt hl1 hz2 hz1

/-- Witness for C5 at a concrete extent, piece count and content. -/
theorem C5_streaming_round_trip_witness :
    1 ≤ 3 ∧ 3 ≤ 7 ∧ StreamingRoundTripClaim (fun z => z + 10) 7 3 :=
  ⟨by decide, by decide, C5_streaming_round_trip (fun z => z + 10) 7 3 (by decide) (by decide)⟩

/-- State of ClampImageFilter relevant to SetBounds
(itkClampImageFilter.hxx): the functor's bounds and the filter's modification
timestamp. -/
structure ClampFilterState where
  lowerBound : Int
  upperBound : Int
  mtime : Nat
  deriving DecidableEq

/-- Functor::Clamp::SetBounds (itkClampImageFilter.hxx lines 50-61): throws
on an inverted pair of bounds, stores them otherwise. -/
def functorSetBounds (lowerBound upperBound : Int) :
    Except String (Int × Int) :=
  if upperBound < lowerBound then Except.error "invalid bounds"
  else Except.ok (lowerBound, upperBound)

/-- ClampImageFilter::SetBounds (itkClampImageFilter.hxx lines 86-99): if
both bounds exactly equal the stored ones, return without calling Modified;
otherwise forward to the functor's SetBounds (which may throw) and call
Modified.  Modified stamps the state with the current clock and advances
the clock. -/
def clampSetBounds (s : ClampFilterState) (clock : Nat)
    (lowerBound upperBound : Int) : Except String (ClampFilterState × Nat) :=
  if lowerBound = s.lowerBound ∧ upperBound = s.upperBound then
    Except.ok (s, clock)
  else
    match functorSetBounds lowerBound upperBound with
    | Except.error e => Except.error e
    | Except.ok (lo, hi) =>
      Except.ok ({ lowerBound := lo, upperBound := hi, mtime := clock }, clock + 1)

/-- State of MeshSpatialObject relevant to SetMesh
(itkMeshSpatialObject.hxx): the identity of the referenced mesh (pointer
identity in the source) and the modification timestamp. -/
structure MeshSpatialObjectState where
  mesh : Nat
  mtime : Nat
  deriving DecidableEq

/-- MeshSpatialObject::SetMesh (itkMeshSpatialObject.hxx lines 111-120):
stores the mesh and calls Modified only when it differs from the stored
one. -/
def setMesh (s : MeshSpatialObjectState) (clock mesh : Nat) :
    MeshSpatialObjectState × Nat :=
  if s.mesh = mesh then (s, clock)
  else ({ mesh := mesh, mtime := clock }, clock + 1)

/-- C8 counterexample: the claim that every change-notifying setter called
with a different value stores the new value and advances the timestamp fails
for ClampImageFilter::SetBounds, which throws on inverted bounds without
storing anything: bounds (5, 3) differ from the stored (0, 10) yet the call
raises instead of storing. -/
theorem C8_setter_claim_counterexample :
    ¬ ∀ (s : ClampFilterState) (clock : Nat) (lo hi : Int),
        ¬(lo = s.lowerBound ∧ hi = s.upperBound) →
        clampSetBounds s clock lo hi
          = Except.ok ({ lowerBound := lo, upperBound := hi, mtime := clock },
              clock + 1) := by
  intro h
  have hx := h ⟨0, 10, 0⟩ 5 5 3 (by decide)
  have hy : clampSetBounds ⟨0, 10, 0⟩ 5 5 3 = Except.error "invalid bounds" := rfl
  rw [hy] at hx
  exact Except.noConfusion hx

/-- C8 (amended): a change-notifying setter called with a value equal to the
stored one returns without storing or advancing the timestamp; called with a
different value that passes the setter's validity check it stores the value
and advances the timestamp; a setter with a validity check (SetBounds)
rejects an invalid different value with an exception, leaving the stored
value and the timestamp unchanged. -/
theorem C8_setter_modified_discipline :
    (∀ (s : ClampFilterState) (clock : Nat) (lo hi : Int),
      lo = s.lowerBound ∧ hi = s.upperBound →
        clampSetBounds s clock lo hi = Except.ok (s, clock)) ∧
    (∀ (s : ClampFilterState) (clock : Nat) (lo hi : Int),
      ¬(lo = s.lowerBound ∧ hi = s.upperBound) → lo ≤ hi →
        clampSetBounds s clock lo hi
          = Except.ok ({ lowerBound := lo, upperBound := hi, mtime := clock },
              clock + 1)) ∧
    (∀ (s : ClampFilterState) (clock : Nat) (lo hi : Int),
      ¬(lo = s.lowerBound ∧ hi = s.upperBound) → hi < lo →
        clampSetBounds s clock lo hi = Except.error "invalid bounds") ∧
    (∀ (s : MeshSpatialObjectState) (clock mesh : Nat),
      s.mesh = mesh → setMesh s clock mesh = (s, clock)) ∧
    (∀ (s : MeshSpatialObjectState) (clock mesh : Nat),
      s.mesh ≠ mesh →
        setMesh s clock mesh = ({ mesh := mesh, mtime := clock }, clock + 1)) := by
  refine ⟨?_, ?_, ?_, ?_, ?_⟩
  · intro s clock lo hi h
    simp [clampSetBounds, h]
  · intro s clock lo hi h hvalid
    rw [clampSetBounds, if_neg h]
    rw [functorSetBounds, if_neg (not_lt_of_le hvalid)]
  · intro s clock lo hi h hinvalid
    rw [clampSetBounds, if_neg h]
    rw [functorSetBounds, if_pos hinvalid]
  · intro s clock mesh h
    simp [setMesh, h]
  · intro s clock mesh h
    simp [setMesh, h]

/-- Witness for the amended C8 at concrete states and values. -/
theorem C8_setter_modified_discipline_witness :
    clampSetBounds ⟨0, 10, 0⟩ 5 0 10 = Except.ok (⟨0, 10, 0⟩, 5) ∧
    clampSetBounds ⟨0, 10, 0⟩ 5 2 8 = Except.ok (⟨2, 8, 5⟩, 6) ∧
    setMesh ⟨4, 0⟩ 5 7 = (⟨7, 5⟩, 6) :=
  ⟨C8_setter_modified_discipline.1 ⟨0, 10, 0⟩ 5 0 10 (by decide),
   C8_setter_modified_discipline.2.1 ⟨0, 10, 0⟩ 5 2 8 (by decide) (by decide),
   C8_setter_modified_discipline.2.2.2.2 ⟨4, 0⟩ 5 7 (by decide)⟩

/-- Modelled from the spec: the per-pixel clamping applied by the superclass
of ClampImageFilter (operator() of Functor::Clamp, declared in the header
that is not among the sampled files): values below the lower bound map to
the lower bound, values above the upper bound map to the upper bound, other
values are kept. -/
def clampPixel (lo hi x : Int) : Int :=
  if x < lo then lo else if hi < x then hi else x

/-- ClampImageFilter::GenerateData (itkClampImageFilter.hxx lines 101-118)
over the buffered pixel list of an output type with range [tmin, tmax]: when
the filter is asked to run in place, can run in place, and the bounds cover
the whole output range, the input is grafted to the output unchanged and the
per-pixel loop is skipped; otherwise the superclass applies the per-pixel
functor to every pixel. -/
def clampGenerateData (inPlace canRunInPlace : Bool) (tmin tmax lo hi : Int)
    (pixels : List Int) : List Int :=
  if inPlace && canRunInPlace && decide (lo ≤ tmin) && decide (tmax ≤ hi) then
    pixels
  else pixels.map (clampPixel lo hi)

/-- Clamping to a range containing all pixel values is the identity. -/
theorem map_clampPixel_id (tmin tmax lo hi : Int) (hlo : lo ≤ tmin)
    (hhi : tmax ≤ hi) (pixels : List Int)
    (hpx : ∀ x ∈ pixels, tmin ≤ x ∧ x ≤ tmax) :
    pixels.map (clampPixel lo hi) = pixels := by
  induction pixels with
  | nil => rfl
  | cons a as ih =>
    have ha := hpx a (List.mem_cons_self _ _)
    have hval : clampPixel lo hi a = a := by
      rw [clampPixel, if_neg (by omega), if_neg (by omega)]
    rw [List.map_cons, hval, ih (fun x hx => hpx x (List.mem_cons_of_mem _ hx))]

/-- C9: when ClampImageFilter runs in place with bounds covering the whole
output-type range, GenerateData takes the fast path that grafts the input to
the output without touching pixels, and the result is pixel-for-pixel the
same as the superclass's per-pixel clamping (clamping to the full range is
the identity on in-range pixels). -/
theorem C9_clamp_fast_path (inPlace canRunInPlace : Bool)
    (tmin tmax lo hi : Int) (pixels : List Int)
    (hpx : ∀ x ∈ pixels, tmin ≤ x ∧ x ≤ tmax) :
    clampGenerateData inPlace canRunInPlace tmin tmax lo hi pixels
      = pixels.map (clampPixel lo hi) ∧
    ((inPlace && canRunInPlace && decide (lo ≤ tmin) && decide (tmax ≤ hi)) = true →
      clampGenerateData inPlace canRunInPlace tmin tmax lo hi pixels = pixels) := by
  constructor
  · by_cases hc : (inPlace && canRunInPlace && decide (lo ≤ tmin) && decide (tmax ≤ hi)) = true
    · rw [clampGenerateData, if_pos hc]
      have hlo : lo ≤ tmin := by
        simp only [Bool.and_eq_true, decide_eq_true_eq] at hc
        exact hc.1.2
      have hhi : tmax ≤ hi := by
        simp only [Bool.and_eq_true, decide_eq_true_eq] at hc
        exact hc.2
      exact (map_clampPixel_id tmin tmax lo hi hlo hhi pixels hpx).symm
    · rw [clampGenerateData, if_neg hc]
  · intro hc
    rw [clampGenerateData, if_pos hc]

/-- Witness for C9 on a concrete in-range pixel list with full-range
bounds. -/
theorem C9_clamp_fast_path_witness :
    (∀ x ∈ ([0, 3, 7] : List Int), (0 : Int) ≤ x ∧ x ≤ 7) ∧
    (clampGenerateData true true 0 7 0 7 [0, 3, 7]
        = List.map (clampPixel 0 7) [0, 3, 7] ∧
     ((true && true && decide ((0 : Int) ≤ 0) && decide ((7 : Int) ≤ 7)) = true →
      clampGenerateData true true 0 7 0 7 [0, 3, 7] = [0, 3, 7])) :=
  ⟨by decide, C9_clamp_fast_path true true 0 7 0 7 [0, 3, 7] (by decide)⟩

/-- State of GaussianOperator (itkGaussianOperator.h): variance, maximum
error and maximum kernel width, with the source's default member values
1, 0.01 and 30.  Doubles are modelled as rationals; only exact order
comparisons are involved. -/
structure GaussianOperatorState where
  variance : ℚ
  maximumError : ℚ
  maximumKernelWidth : Nat
  deriving DecidableEq

/-- GaussianOperator::SetMaximumError (itkGaussianOperator.h lines 88-97):
throws when the argument is at least 1 or at most 0 (even though the message
text names the closed range [ 0.0 , 1.0 ]), otherwise stores the argument.
Returns the resulting state and whether an exception was raised. -/
def setMaximumError (g : GaussianOperatorState) (e : ℚ) :
    GaussianOperatorState × Bool :=
  if 1 ≤ e ∨ e ≤ 0 then (g, true)
  else ({ g with maximumError := e }, false)

/-- C10: SetMaximumError raises exactly when the argument is ≤ 0 or ≥ 1 —
both boundary values are rejected — and when it raises the stored maximum
error retains its previous value; when it does not raise, the argument is
stored. -/
theorem C10_setMaximumError_range (g : GaussianOperatorState) (e : ℚ) :
    ((setMaximumError g e).2 = true ↔ (e ≤ 0 ∨ 1 ≤ e)) ∧
    ((setMaximumError g e).2 = true → (setMaximumError g e).1 = g) ∧
    ((setMaximumError g e).2 = false →
      (setMaximumError g e).1 = { g with maximumError := e }) := by
  by_cases h : 1 ≤ e ∨ e ≤ 0
  · rw [setMaximumError, if_pos h]
    refine ⟨?_, fun _ => rfl, fun hfalse => absurd hfalse (by simp)⟩
    simp only [true_iff]
    exact Or.symm h
  · rw [setMaximumError, if_neg h]
    push_neg at h
    refine ⟨?_, fun htrue => absurd htrue (by simp), fun _ => rfl⟩
    simp only [Bool.false_eq_true, false_iff]
    rintro (h1 | h1)
    · exact absurd h1 (not_le_of_lt h.2)
    · exact absurd h1 (not_le_of_lt h.1)

/-- Witness for C10 at the source's default state with a rejected boundary
value and an accepted interior value. -/
theorem C10_setMaximumError_range_witness :
    ((setMaximumError ⟨1, 1/100, 30⟩ 1).2 = true ↔ ((1 : ℚ) ≤ 0 ∨ 1 ≤ (1 : ℚ))) ∧
    ((setMaximumError ⟨1, 1/100, 30⟩ 1).2 = true →
      (setMaximumError ⟨1, 1/100, 30⟩ 1).1 = ⟨1, 1/100, 30⟩) ∧
    ((setMaximumError ⟨1, 1/100, 30⟩ (1/2)).2 = false →
      (setMaximumError ⟨1, 1/100, 30⟩ (1/2)).1
        = { (⟨1, 1/100, 30⟩ : GaussianOperatorState) with maximumError := 1/2 }) :=
  ⟨(C10_setMaximumError_range ⟨1, 1/100, 30⟩ 1).1,
   (C10_setMaximumError_range ⟨1, 1/100, 30⟩ 1).2.1,
   (C10_setMaximumError_range ⟨1, 1/100, 30⟩ (1/2)).2.2⟩

end ITKPipeline
